import Mathlib

/-!
Verification development for the reservation-table coordinator of
libbitcoin-node (`src/reservations.cpp`).

The embedding below translates the coordinator into pure Lean functions:

* a `reservation` (one table row) is its stable slot index, its ordered
  work queue of (hash, height) pairs, its idle flag and its normalized
  rate sample;
* the coordinator state `reservations` is the row table together with
  the pending-work source (the external `hash_queue`), modelled as the
  list of items still available, front first;
* `size_t` arithmetic is carried out on `Nat` with an explicit
  `% 2 ^ 64` (respectively truncation against `max_size_t`) at every
  spot where the C++ counter could wrap.

Row-internal operations that live outside this translation unit
(`reservation::partition`, `reservation::divide`) are modelled from the
specification; their doc comments say so explicitly.
-/

/-- A pending work item: the block hash (abstracted to a number) and its
height, as handled by `hash_queue::pop`. -/
abbrev Item := Nat × Nat

/-- One row of the reservation table (`reservation`): stable slot index,
the ordered queue of reserved (hash, height) pairs, the idle flag
reported by `idle()` and the normalized rate reported by
`rate().normal()`. -/
structure reservation where
  slot : Nat
  queue : List Item
  idle : Bool
  normal : Rat
deriving DecidableEq

instance : Inhabited reservation := ⟨⟨0, [], true, 0⟩⟩

/-- `reservation::size()`: current queue length. -/
def reservation.size (r : reservation) : Nat := r.queue.length

/-- `reservation::insert(hash, height)`: append one work item to the
row's queue. -/
def reservation.insert (r : reservation) (it : Item) : reservation :=
  { r with queue := r.queue ++ [it] }

/-- `reservation::empty()`. -/
def reservation.empty (r : reservation) : Bool := r.queue.isEmpty

/-- Coordinator state: the row table `table_` and the pending-work
source `hashes_` (front of the list = next item popped). -/
structure reservations where
  table : List reservation
  hashes : List Item
deriving DecidableEq

/-- `max_block_request = 50000`, the protocol maximum size of get data
block requests (`reservations.cpp` line 39). -/
def max_block_request : Nat := 50000

/-- `max_size_t` for a 64-bit `size_t`. -/
def max_size_t : Nat := 2 ^ 64 - 1

/-- The row-count cap computed in `initialize`:
`max_size_t / max_block_request`. -/
def max_rows : Nat := max_size_t / max_block_request

/-- Wrapping `size_t` subtraction `a - b` (two's complement, 64 bits),
as performed by `max_block_request - existing` in `reserve`. -/
def sizeTSub (a b : Nat) : Nat :=
  (a + (max_size_t + 1) - b % (max_size_t + 1)) % (max_size_t + 1)

/-- Write `x` at position `j` of the table, as `table_[j]` lvalue
assignment through the row pointer; out-of-range writes are impossible
in the source and are a no-op here. -/
def setTable : List reservation → Nat → reservation → List reservation
  | [], _, _ => []
  | _ :: rest, 0, x => x :: rest
  | r :: rest, n + 1, x => r :: setTable rest n x

/-- One `hashes_.pop(hash, height); table_[r]->insert(hash, height);`
step. `hash_queue::pop` on an empty queue is gated out by every caller
(§6 of the spec: callers must gate on `size()`), so the empty case is a
no-op. -/
def popInsert (s : reservations) (r : Nat) : reservations :=
  match s.hashes with
  | [] => s
  | it :: rest =>
      { table := setTable s.table r ((s.table.getD r default).insert it),
        hashes := rest }

/-- Modelled from the spec: `std::make_shared<reservation>(self, row)` —
the row constructor is outside this translation unit; per §3 a fresh row
holds no work and is idle (no assigned peer activity yet), and its slot
index is the construction argument. -/
def newReservation (slot : Nat) : reservation :=
  { slot := slot, queue := [], idle := true, normal := 0 }

/-- The nested distribution loops of `initialize` (lines 182–189): for
each of `rounds` full rounds, take one item per row, in row order
`0 .. rows - 1`, from the pending source and insert it into that row. -/
def distributeRR (rounds rows : Nat) (s : reservations) : reservations :=
  (List.range rounds).foldl
    (fun u _ => (List.range rows).foldl popInsert u) s

/-- `reservations::initialize(size)` (lines 138–196): clamp the row
count by `max_rows` and by the pending count, stop if zero, cap the
allocation at `rows * max_block_request` (computed in `size_t`, hence
the explicit wrap), create the rows, then distribute
`allocation / rows` full round-robin rounds from the pending source. -/
def initializeTable (size : Nat) (s : reservations) : reservations :=
  let rows0 := min max_rows size
  let blocks := s.hashes.length
  let rows := min rows0 blocks
  if rows = 0 then s
  else
    let max_allocation := (rows * max_block_request) % (max_size_t + 1)
    let allocation := min blocks max_allocation
    let t : reservations :=
      { s with table := s.table ++ (List.range rows).map newReservation }
    distributeRR (allocation / rows) rows t

/-- The accumulator step of `std::max_element` with comparer
`left->size() < right->size()`: keep the current best unless the next
element is strictly larger. -/
def maxStep (best cur : Nat × reservation) : Nat × reservation :=
  if best.2.size < cur.2.size then cur else best

/-- `reservations::find_maximal()` (lines 229–241): none on an empty
table, otherwise the position of the first row of maximal queue size,
exactly as `std::max_element` scans the table. -/
def find_maximal (t : List reservation) : Option Nat :=
  match t.enum with
  | [] => none
  | b :: rest => some ((rest.foldl maxStep b).1)

/-- `reservations::reserve(minimal)` (lines 243–263): pop
`min(hashes_.size(), max_block_request - minimal->size())` items into
the row (the subtraction is `size_t` arithmetic), then report
`!minimal->empty()`. The row is addressed by its table position. -/
def reserve (i : Nat) (s : reservations) : Bool × reservations :=
  let size := s.hashes.length
  let existing := (s.table.getD i default).size
  let allocation := min size (sizeTSub max_block_request existing)
  let s' := (List.range allocation).foldl (fun u _ => popInsert u i) s
  (!(s'.table.getD i default).empty, s')

/-- Modelled from the spec: `reservation::partition(minimal)` — the
row's own split routine is outside this translation unit; per §6 it
"moves a portion of this row's outstanding queue into otherRow" and §9
leaves the split ratio open. Modelled as moving half of the donor
queue, rounded up, from the front of donor `m` to target `i`. -/
def rowPartition (s : reservations) (m i : Nat) : reservations :=
  let donor := s.table.getD m default
  let target := s.table.getD i default
  let moved := donor.queue.take ((donor.queue.length + 1) / 2)
  let kept := donor.queue.drop ((donor.queue.length + 1) / 2)
  let donor' : reservation := { donor with queue := kept }
  let target' : reservation := { target with queue := target.queue ++ moved }
  { s with table := setTable (setTable s.table m donor') i target' }

/-- `reservations::partition(minimal)` (lines 219–227): find the
maximal row; steal from it only when it exists and is not the target
row itself. -/
def partition (i : Nat) (s : reservations) : reservations :=
  match find_maximal s.table with
  | none => s
  | some m => if m = i then s else rowPartition s m i

/-- `reservations::populate(minimal)` (lines 198–216): try a direct
top-up from the pending source; on failure fall back to partitioning. -/
def populate (i : Nat) (s : reservations) : reservations :=
  let p := reserve i s
  if p.1 then p.2 else partition i p.2

/-- `reservations::remove(row)` (lines 111–133): erase the first table
entry equal to `row`; absent rows leave the table untouched. -/
def remove (row : reservation) (s : reservations) : reservations :=
  { s with table := s.table.erase row }

/-- Modelled from the spec: `reservation::divide` — the generic safe
divide helper lives in `reservation.hpp`, outside this translation
unit; §4.4 documents it as guarding the zero-denominator case and
recommends a zero result there. -/
def divide (dividend : Rat) (divisor : Nat) : Rat :=
  if divisor = 0 then 0 else dividend / (divisor : Rat)

/-- `reservations::rates()` (lines 60–96): drop idle rows, convert the
rest to normalized rates, and return the active count, the mean and the
quotient `sum((mean - rate)^2) / active_rows`. The final
`standard_deviation = sqrt(quotient)` of line 94 is expressed in the
theorems as `Real.sqrt` of the third component, which keeps this
definition executable. -/
def rates (t : List reservation) : Nat × Rat × Rat :=
  let rows := t.filter fun row => !row.idle
  let active_rows := rows.length
  let rs := rows.map fun row => row.normal
  let values := rs.foldl (fun a b => a + b) 0
  let mean := divide values active_rows
  let squares := rs.foldl
    (fun initial rate => initial + (mean - rate) * (mean - rate)) 0
  let quotient := divide squares active_rows
  (active_rows, mean, quotient)

/-- The multiset of all work items held anywhere in the coordinator:
the rows' queues together with the pending source. -/
def itemsOf (s : reservations) : Multiset Item :=
  (s.table.map fun r => (r.queue : Multiset Item)).sum + (s.hashes : Multiset Item)

/-! ### Spec-side formulas and concrete example states used in the theorems -/

/-- The row count the spec promises after `initialize`:
`min(R, P, MAX_COUNTER / MAX_PER_ROW_ALLOCATION)`. -/
def specRows (R P : Nat) : Nat := min R (min P max_rows)

/-- The allocation the spec promises:
`min(P, rows * MAX_PER_ROW_ALLOCATION)`. -/
def specAllocation (R P : Nat) : Nat :=
  min P (specRows R P * max_block_request)

def pendingC1 : List Item := [(10, 1), (11, 2), (12, 3), (13, 4), (14, 5)]

def pendingC2 : List Item :=
  [(20, 1), (21, 2), (22, 3), (23, 4), (24, 5), (25, 6), (26, 7)]

def sC4 : reservations := ⟨[⟨0, [(5, 5)], false, 0⟩], [(1, 1), (2, 2)]⟩

def rowFull : reservation := ⟨0, List.replicate 50000 (0, 0), false, 0⟩

def sC10 : reservations := ⟨[rowFull], [(9, 9)]⟩

def sC5 : reservations := ⟨[⟨0, [(1, 1)], false, 0⟩], []⟩

def rowC8 : reservation := ⟨7, [], true, 0⟩

def sC8 : reservations := ⟨[⟨0, [], true, 0⟩], [(3, 3)]⟩

def ratesExample : List reservation :=
  [⟨0, [], false, 2⟩, ⟨1, [], true, 50⟩, ⟨2, [], false, 4⟩, ⟨3, [], false, 6⟩]

def tC7 : List reservation := [⟨0, [(2, 2)], true, 5⟩]

def sC3 : reservations :=
  ⟨[⟨0, [(1, 1), (2, 2), (3, 3)], false, 0⟩, ⟨1, [], false, 0⟩], []⟩

/-! ### Table update lemmas -/

theorem setTable_length (t : List reservation) (j : Nat) (x : reservation) :
    (setTable t j x).length = t.length := by
  induction t generalizing j with
  | nil => rfl
  | cons r rest ih =>
    cases j with
    | zero => rfl
    | succ n => simp [setTable, ih]

theorem getD_setTable_self (t : List reservation) (j : Nat) (x : reservation)
    (h : j < t.length) : (setTable t j x).getD j default = x := by
  induction t generalizing j with
  | nil => simp at h
  | cons r rest ih =>
    cases j with
    | zero => rfl
    | succ n =>
      simp only [setTable, List.getD_cons_succ]
      exact ih n (by simpa using h)

theorem getD_setTable_ne (t : List reservation) (j j' : Nat) (x : reservation)
    (h : j' ≠ j) : (setTable t j x).getD j' default = t.getD j' default := by
  induction t generalizing j j' with
  | nil => rfl
  | cons r rest ih =>
    cases j with
    | zero =>
      cases j' with
      | zero => exact absurd rfl h
      | succ n' => rfl
    | succ n =>
      cases j' with
      | zero => rfl
      | succ n' =>
        simp only [setTable, List.getD_cons_succ]
        exact ih n n' fun hc => h (by rw [hc])

theorem map_sum_setTable {M : Type} [AddCommMonoid M] (f : reservation → M)
    (t : List reservation) (j : Nat) (x : reservation) (h : j < t.length) :
    ((setTable t j x).map f).sum + f (t.getD j default) = (t.map f).sum + f x := by
  induction t generalizing j with
  | nil => simp at h
  | cons r rest ih =>
    cases j with
    | zero =>
      simp only [setTable, List.map_cons, List.sum_cons, List.getD_cons_zero]
      abel
    | succ n =>
      simp only [setTable, List.map_cons, List.sum_cons, List.getD_cons_succ]
      have hr := ih n (by simpa using h)
      rw [add_assoc, hr, add_assoc]

/-! ### Single pop-insert step lemmas -/

theorem popInsert_table_length (s : reservations) (r : Nat) :
    (popInsert s r).table.length = s.table.length := by
  cases h : s.hashes with
  | nil => simp [popInsert, h]
  | cons it rest => simp [popInsert, h, setTable_length]

theorem itemsOf_popInsert (s : reservations) (r : Nat)
    (h : r < s.table.length) : itemsOf (popInsert s r) = itemsOf s := by
  obtain ⟨T, hs⟩ := s
  cases hs with
  | nil => rfl
  | cons it rest =>
    have h' : r < T.length := h
    have hm := map_sum_setTable (fun row => (row.queue : Multiset Item))
      T r ((T.getD r default).insert it) h'
    have hins : ((((T.getD r default).insert it).queue : List Item) : Multiset Item)
        = ((T.getD r default).queue : Multiset Item) + {it} := by
      simp [reservation.insert, ← Multiset.coe_add]
    simp only [] at hm
    rw [hins] at hm
    have hm' : ((setTable T r ((T.getD r default).insert it)).map
          fun row => (row.queue : Multiset Item)).sum
          + ((T.getD r default).queue : Multiset Item)
        = ((T.map fun row => (row.queue : Multiset Item)).sum + {it})
          + ((T.getD r default).queue : Multiset Item) := by
      rw [hm]; abel
    have hsum := add_right_cancel hm'
    show ((setTable T r ((T.getD r default).insert it)).map
        fun row => (row.queue : Multiset Item)).sum + (rest : Multiset Item)
      = (T.map fun row => (row.queue : Multiset Item)).sum
        + ((it :: rest : List Item) : Multiset Item)
    rw [hsum, ← Multiset.cons_coe, ← Multiset.singleton_add]
    abel

/-! ### Fold preservation lemmas -/

theorem foldl_popInsert_length (idxs : List Nat) (s : reservations) :
    (idxs.foldl popInsert s).table.length = s.table.length := by
  induction idxs generalizing s with
  | nil => rfl
  | cons r rest ih =>
    rw [List.foldl_cons, ih, popInsert_table_length]

theorem itemsOf_foldl_popInsert (idxs : List Nat) (s : reservations)
    (h : ∀ r ∈ idxs, r < s.table.length) :
    itemsOf (idxs.foldl popInsert s) = itemsOf s := by
  induction idxs generalizing s with
  | nil => rfl
  | cons r rest ih =>
    have hr : r < s.table.length := h r (by simp)
    rw [List.foldl_cons,
      ih (popInsert s r) (fun x hx => by
        rw [popInsert_table_length]; exact h x (List.mem_cons_of_mem _ hx)),
      itemsOf_popInsert s r hr]

theorem rounds_table_length {α : Type} (l : List α) (rows : Nat)
    (s : reservations) :
    (l.foldl (fun u _ => (List.range rows).foldl popInsert u) s).table.length
      = s.table.length := by
  induction l generalizing s with
  | nil => rfl
  | cons x rest ih =>
    rw [List.foldl_cons, ih, foldl_popInsert_length]

theorem itemsOf_rounds {α : Type} (l : List α) (rows : Nat)
    (s : reservations) (h : rows ≤ s.table.length) :
    itemsOf (l.foldl (fun u _ => (List.range rows).foldl popInsert u) s)
      = itemsOf s := by
  induction l generalizing s with
  | nil => rfl
  | cons x rest ih =>
    rw [List.foldl_cons,
      ih ((List.range rows).foldl popInsert s) (by
        rw [foldl_popInsert_length]; exact h),
      itemsOf_foldl_popInsert (List.range rows) s (fun r hr => by
        have := List.mem_range.mp hr; omega)]

/-! ### One round of the round-robin distribution -/

theorem roundAux (n : Nat) : ∀ (a : Nat) (s : reservations),
    a + n ≤ s.table.length → n ≤ s.hashes.length →
    ((List.range' a n).foldl popInsert s).hashes = s.hashes.drop n ∧
    (∀ j, j < a →
      ((List.range' a n).foldl popInsert s).table.getD j default
        = s.table.getD j default) ∧
    (∀ j, a ≤ j → j < a + n →
      ((List.range' a n).foldl popInsert s).table.getD j default
        = (s.table.getD j default).insert (s.hashes.getD (j - a) (0, 0))) ∧
    (∀ j, a + n ≤ j →
      ((List.range' a n).foldl popInsert s).table.getD j default
        = s.table.getD j default) := by
  induction n with
  | zero =>
    intro a s ht hh
    refine ⟨rfl, fun j hj => rfl, fun j h1 h2 => by omega, fun j hj => rfl⟩
  | succ n ih =>
    intro a s ht hh
    obtain ⟨T, H⟩ := s
    cases H with
    | nil => simp at hh
    | cons it restH =>
      have hTlen : a < T.length := by
        have : a + (n + 1) ≤ T.length := ht
        omega
      rw [List.range'_succ]
      have hstep : popInsert ⟨T, it :: restH⟩ a
          = ⟨setTable T a ((T.getD a default).insert it), restH⟩ := rfl
      rw [List.foldl_cons, hstep]
      set s1 : reservations := ⟨setTable T a ((T.getD a default).insert it), restH⟩
        with hs1
      have hs1t : s1.table.length = T.length := setTable_length _ _ _
      have htT : a + (n + 1) ≤ T.length := ht
      have ih' := ih (a + 1) s1 (by rw [hs1t]; omega) (by
        have hlenH : n + 1 ≤ (it :: restH).length := hh
        simpa using hlenH)
      obtain ⟨ihh, ihlow, ihmid, ihhigh⟩ := ih'
      refine ⟨?_, ?_, ?_, ?_⟩
      · rw [ihh]
        rfl
      · intro j hj
        rw [ihlow j (by omega)]
        exact getD_setTable_ne T a j _ (by omega)
      · intro j h1 h2
        rcases Nat.eq_or_lt_of_le h1 with he | hlt
        · have he' : j = a := he.symm
          subst he'
          rw [ihlow j (by omega)]
          show (setTable T j ((T.getD j default).insert it)).getD j default = _
          rw [getD_setTable_self T j _ hTlen]
          have hz : (⟨T, it :: restH⟩ : reservations).hashes.getD (j - j) (0, 0) = it := by
            simp
          rw [hz]
        · have hj1 : a + 1 ≤ j := hlt
          rw [ihmid j hj1 (by omega)]
          have hset : s1.table.getD j default = T.getD j default :=
            getD_setTable_ne T a j _ (by omega)
          rw [hset]
          have hidx : j - a = (j - (a + 1)) + 1 := by omega
          have hrest : (⟨T, it :: restH⟩ : reservations).hashes.getD (j - a) (0, 0)
              = restH.getD (j - (a + 1)) (0, 0) := by
            show (it :: restH).getD (j - a) (0, 0) = restH.getD (j - (a + 1)) (0, 0)
            rw [hidx]
            simp [List.getD_cons_succ]
          rw [hrest]
      · intro j hj
        rw [ihhigh j (by omega)]
        exact getD_setTable_ne T a j _ (by omega)

/-! ### Full round-robin distribution characterization -/

theorem getD_drop_item (l : List Item) (n m : Nat) :
    (l.drop n).getD m (0, 0) = l.getD (n + m) (0, 0) := by
  rw [List.getD_eq_getElem?_getD, List.getD_eq_getElem?_getD, List.getElem?_drop]

theorem queue_append_nil (r : reservation) :
    ({ r with queue := r.queue ++ ([] : List Item) }) = r := by
  cases r
  simp

theorem distributeAux (rounds rows : Nat) (s : reservations)
    (ht : rows ≤ s.table.length) (hh : rounds * rows ≤ s.hashes.length) :
    (distributeRR rounds rows s).hashes = s.hashes.drop (rounds * rows) ∧
    (distributeRR rounds rows s).table.length = s.table.length ∧
    (∀ j, j < rows →
      (distributeRR rounds rows s).table.getD j default
        = { s.table.getD j default with
            queue := (s.table.getD j default).queue
              ++ (List.range rounds).map
                (fun b => s.hashes.getD (b * rows + j) (0, 0)) }) ∧
    (∀ j, rows ≤ j →
      (distributeRR rounds rows s).table.getD j default
        = s.table.getD j default) := by
  induction rounds with
  | zero =>
    refine ⟨by simp [distributeRR], rfl, fun j hj => ?_, fun j hj => rfl⟩
    rw [List.range_zero, List.map_nil, queue_append_nil]
    rfl
  | succ r ihr =>
    have hh' : r * rows ≤ s.hashes.length := by
      have : (r + 1) * rows = r * rows + rows := by ring
      omega
    obtain ⟨ih1, ih2, ih3, ih4⟩ := ihr hh'
    have hunf : distributeRR (r + 1) rows s
        = (List.range rows).foldl popInsert (distributeRR r rows s) := by
      show (List.range (r + 1)).foldl
        (fun u _ => (List.range rows).foldl popInsert u) s = _
      rw [List.range_succ, List.foldl_append]
      rfl
    set prev := distributeRR r rows s with hprev
    have hplen : rows ≤ prev.table.length := by rw [ih2]; exact ht
    have hphash : rows ≤ prev.hashes.length := by
      rw [ih1, List.length_drop]
      have : (r + 1) * rows = r * rows + rows := by ring
      omega
    obtain ⟨rh, rlow, rmid, rhigh⟩ :=
      roundAux rows 0 prev (by simpa using hplen) hphash
    refine ⟨?_, ?_, ?_, ?_⟩
    · rw [hunf, List.range_eq_range', rh, ih1, List.drop_drop]
      have h2 : r * rows + rows = (r + 1) * rows := by ring
      rw [h2]
    · rw [hunf, foldl_popInsert_length, ih2]
    · intro j hj
      rw [hunf, List.range_eq_range', rmid j (by omega) (by omega), ih3 j hj]
      have hitem : prev.hashes.getD (j - 0) (0, 0)
          = s.hashes.getD (r * rows + j) (0, 0) := by
        rw [ih1]
        have : j - 0 = j := by omega
        rw [this, getD_drop_item]
      rw [hitem]
      simp [reservation.insert, List.range_succ, List.append_assoc]
    · intro j hj
      rw [hunf, List.range_eq_range', rhigh j (by omega), ih4 j hj]

/-! ### The reserve top-up loop -/

theorem reserveLoopAux (n : Nat) : ∀ (a i : Nat) (s : reservations),
    i < s.table.length → n ≤ s.hashes.length →
    ((List.range' a n).foldl (fun u _ => popInsert u i) s).hashes
      = s.hashes.drop n ∧
    ((List.range' a n).foldl (fun u _ => popInsert u i) s).table.length
      = s.table.length ∧
    ((List.range' a n).foldl (fun u _ => popInsert u i) s).table.getD i default
      = { s.table.getD i default with
          queue := (s.table.getD i default).queue ++ s.hashes.take n } ∧
    (∀ j, j ≠ i →
      ((List.range' a n).foldl (fun u _ => popInsert u i) s).table.getD j default
        = s.table.getD j default) := by
  induction n with
  | zero =>
    intro a i s hi hh
    refine ⟨rfl, rfl, ?_, fun j hj => rfl⟩
    rw [List.take_zero, queue_append_nil]
    rfl
  | succ n ih =>
    intro a i s hi hh
    obtain ⟨T, H⟩ := s
    cases H with
    | nil => simp at hh
    | cons it restH =>
      have hiT : i < T.length := hi
      rw [List.range'_succ, List.foldl_cons]
      have hstep : popInsert ⟨T, it :: restH⟩ i
          = ⟨setTable T i ((T.getD i default).insert it), restH⟩ := rfl
      rw [hstep]
      set s1 : reservations := ⟨setTable T i ((T.getD i default).insert it), restH⟩
        with hs1
      have hs1t : s1.table.length = T.length := setTable_length _ _ _
      have hresn : n ≤ restH.length := by
        have hlen : n + 1 ≤ (it :: restH).length := hh
        simpa using hlen
      obtain ⟨ihh, ihlen, ihi, ihj⟩ := ih (a + 1) i s1 (by omega) hresn
      refine ⟨?_, ?_, ?_, ?_⟩
      · rw [ihh]
        rfl
      · rw [ihlen, hs1t]
      · rw [ihi]
        have hrow : s1.table.getD i default = (T.getD i default).insert it :=
          getD_setTable_self T i _ hiT
        rw [hrow]
        show ({ (T.getD i default).insert it with
            queue := ((T.getD i default).insert it).queue ++ restH.take n })
          = { T.getD i default with
              queue := (T.getD i default).queue ++ (it :: restH).take (n + 1) }
        simp [reservation.insert, List.append_assoc]
      · intro j hj
        rw [ihj j hj]
        exact getD_setTable_ne T i j _ hj

/-! ### Position of the first maximal row (`std::max_element`) -/

theorem maxFold (cs : List (Nat × reservation)) : ∀ (b : Nat × reservation),
    b.2.size ≤ (cs.foldl maxStep b).2.size ∧
    ∃ pre post, b :: cs = pre ++ (cs.foldl maxStep b) :: post ∧
      (∀ p ∈ pre, p.2.size < (cs.foldl maxStep b).2.size) ∧
      (∀ q ∈ post, q.2.size ≤ (cs.foldl maxStep b).2.size) := by
  induction cs with
  | nil =>
    intro b
    exact ⟨le_refl _, [], [], rfl, by simp, by simp⟩
  | cons c cs' ih =>
    intro b
    rw [List.foldl_cons]
    by_cases hbc : b.2.size < c.2.size
    · have hstep : maxStep b c = c := by simp [maxStep, hbc]
      rw [hstep]
      obtain ⟨hle, pre, post, hdec, hpre, hpost⟩ := ih c
      refine ⟨le_trans (le_of_lt hbc) hle, b :: pre, post, ?_, ?_, hpost⟩
      · rw [List.cons_append, ← hdec]
      · intro p hp
        rcases List.mem_cons.mp hp with hpb | hpp
        · rw [hpb]
          exact lt_of_lt_of_le hbc hle
        · exact hpre p hpp
    · have hstep : maxStep b c = b := by simp [maxStep, hbc]
      rw [hstep]
      have hcb : c.2.size ≤ b.2.size := le_of_not_lt hbc
      obtain ⟨hle, pre, post, hdec, hpre, hpost⟩ := ih b
      cases pre with
      | nil =>
        have hr : cs'.foldl maxStep b = b := by
          have := hdec
          simp at this
          exact this.1.symm
        refine ⟨hle, [], c :: cs', ?_, by simp, ?_⟩
        · rw [hr]
          rfl
        · intro q hq
          rcases List.mem_cons.mp hq with hqc | hqcs
          · rw [hqc, hr]
            exact hcb
          · rw [hr]
            have hpost' : ∀ q ∈ cs', q.2.size ≤ (cs'.foldl maxStep b).2.size := by
              intro q' hq'
              have hq'' : q' ∈ b :: cs' := List.mem_cons_of_mem _ hq'
              rw [hdec] at hq''
              simp at hq''
              rcases hq'' with h1 | h2
              · rw [h1]
              · exact hpost q' h2
            have := hpost' q hqcs
            rw [hr] at this
            exact this
      | cons p0 pre2 =>
        have hinj := hdec
        rw [List.cons_append] at hinj
        have hp0 : p0 = b := (List.cons.injEq _ _ _ _ ▸ hinj).1.symm
        have hcs' : cs' = pre2 ++ (cs'.foldl maxStep b) :: post :=
          (List.cons.injEq _ _ _ _ ▸ hinj).2
        refine ⟨hle, b :: c :: pre2, post, ?_, ?_, hpost⟩
        · rw [List.cons_append, List.cons_append, ← hcs']
        · intro p hp
          have hb_lt : b.2.size < (cs'.foldl maxStep b).2.size := by
            have : p0 ∈ p0 :: pre2 := List.mem_cons_self _ _
            have := hpre p0 this
            rw [hp0] at this
            exact this
          rcases List.mem_cons.mp hp with h1 | h2
          · rw [h1]; exact hb_lt
          · rcases List.mem_cons.mp h2 with h3 | h4
            · rw [h3]
              exact lt_of_le_of_lt hcb hb_lt
            · exact hpre p (List.mem_cons_of_mem _ h4)

theorem find_maximal_spec (t : List reservation) (m : Nat)
    (h : find_maximal t = some m) :
    m < t.length ∧
    (∀ j, j < t.length → (t.getD j default).size ≤ (t.getD m default).size) ∧
    (∀ j, j < m → (t.getD j default).size < (t.getD m default).size) := by
  unfold find_maximal at h
  cases henum : t.enum with
  | nil =>
    rw [henum] at h
    simp at h
  | cons b rest =>
    rw [henum] at h
    simp only [Option.some.injEq] at h
    obtain ⟨hle, pre, post, hdec, hpre, hpost⟩ := maxFold rest b
    set r := rest.foldl maxStep b with hr
    have htE : t.enum = pre ++ r :: post := by rw [henum, hdec]
    have hlen : t.length = pre.length + post.length + 1 := by
      have hc := congrArg List.length htE
      rw [List.enum_length] at hc
      simp [List.length_append] at hc
      omega
    have hb1 : pre.length < t.enum.length := by
      rw [List.enum_length]
      omega
    have hb2 : pre.length < t.length := by omega
    have h1 : t.enum[pre.length]? = some r := by
      rw [htE, List.getElem?_append_right (le_refl _)]
      simp
    have h2 : t.enum[pre.length]? = some (pre.length, t[pre.length]) := by
      rw [List.getElem?_eq_getElem hb1, List.getElem_enum]
    have hrval : r = (pre.length, t[pre.length]) := by
      rw [h1] at h2
      exact Option.some_inj.mp h2
    have hm : m = pre.length := by
      rw [← h, hrval]
    subst hm
    have hpremem : ∀ (j : Nat), j < pre.length → (j, t.getD j default) ∈ pre := by
      intro j hj
      have hjt : j < t.length := by omega
      have hjE : j < t.enum.length := by rw [List.enum_length]; omega
      have e1 : t.enum[j]? = some (j, t.getD j default) := by
        rw [List.getElem?_eq_getElem hjE, List.getElem_enum,
          List.getD_eq_getElem t default hjt]
      have e2 : t.enum[j]? = pre[j]? := by
        rw [htE, List.getElem?_append]
        simp [hj]
      rw [e2] at e1
      exact List.getElem?_mem e1
    have hpostmem : ∀ (j : Nat), pre.length < j → j < t.length →
        (j, t.getD j default) ∈ post := by
      intro j hjl hjt
      have hjE : j < t.enum.length := by rw [List.enum_length]; omega
      have e1 : t.enum[j]? = some (j, t.getD j default) := by
        rw [List.getElem?_eq_getElem hjE, List.getElem_enum,
          List.getD_eq_getElem t default hjt]
      set k := j - pre.length - 1 with hk
      have e2 : t.enum[j]? = post[k]? := by
        rw [htE, List.getElem?_append_right (by omega)]
        have hd : j - pre.length = k + 1 := by omega
        rw [hd, List.getElem?_cons_succ]
      rw [e2] at e1
      exact List.getElem?_mem e1
    have hrsize : (t.getD pre.length default).size = r.2.size := by
      rw [List.getD_eq_getElem t default hb2, hrval]
    refine ⟨hb2, ?_, ?_⟩
    · intro j hj
      rcases lt_trichotomy j pre.length with hlt | heq | hgt
      · have hp := hpre (j, t.getD j default) (hpremem j hlt)
        rw [hrsize]
        exact le_of_lt hp
      · rw [heq]
      · have hp := hpost (j, t.getD j default) (hpostmem j hgt hj)
        rw [hrsize]
        exact hp
    · intro j hj
      have hp := hpre (j, t.getD j default) (hpremem j hj)
      rw [hrsize]
      exact hp

theorem find_maximal_of_ne_nil (t : List reservation) (hne : t ≠ []) :
    ∃ m, find_maximal t = some m := by
  cases henum : t.enum with
  | nil =>
    have hc := congrArg List.length henum
    rw [List.enum_length] at hc
    exact absurd (List.eq_nil_of_length_eq_zero hc) hne
  | cons b rest =>
    refine ⟨(rest.foldl maxStep b).1, ?_⟩
    unfold find_maximal
    rw [henum]

/-! ### Spec-side capacity formulas (§8 of the spec) -/

theorem specRows_eq (R P : Nat) : min (min max_rows R) P = specRows R P := by
  unfold specRows
  omega

/-- Unfolding equation for `initializeTable`. -/
theorem initializeTable_eq (size : Nat) (s : reservations) :
    initializeTable size s =
      if min (min max_rows size) s.hashes.length = 0 then s
      else
        distributeRR
          ((min s.hashes.length
              ((min (min max_rows size) s.hashes.length * max_block_request)
                % (max_size_t + 1)))
            / min (min max_rows size) s.hashes.length)
          (min (min max_rows size) s.hashes.length)
          ⟨s.table
            ++ (List.range (min (min max_rows size) s.hashes.length)).map
              newReservation, s.hashes⟩ := rfl

theorem getD_newRows (rows j : Nat) (hj : j < rows) :
    (((List.range rows).map newReservation : List reservation)).getD j default
      = newReservation j := by
  have hlen : j < ((List.range rows).map newReservation).length := by
    simpa using hj
  rw [List.getD_eq_getElem _ _ hlen]
  simp

theorem sum_map_size_const (t : List reservation) (c : Nat)
    (h : ∀ j, j < t.length → (t.getD j default).size = c) :
    (t.map reservation.size).sum = t.length * c := by
  induction t with
  | nil => simp
  | cons r rest ih =>
    have h0 : r.size = c := h 0 (by simp)
    have hrest : ∀ j, j < rest.length → (rest.getD j default).size = c := by
      intro j hj
      have := h (j + 1) (by simp; omega)
      simpa using this
    simp only [List.map_cons, List.sum_cons, ih hrest, h0, List.length_cons]
    ring

theorem clamped_rows_no_overflow (size blocks : Nat) :
    min (min max_rows size) blocks * max_block_request ≤ max_size_t := by
  have h1 : min (min max_rows size) blocks ≤ max_rows := by omega
  calc min (min max_rows size) blocks * max_block_request
      ≤ max_rows * max_block_request := Nat.mul_le_mul_right _ h1
    _ ≤ max_size_t := Nat.div_mul_le_self _ _

theorem clamped_rows_mod_eq (size blocks : Nat) :
    (min (min max_rows size) blocks * max_block_request) % (max_size_t + 1)
      = min (min max_rows size) blocks * max_block_request := by
  exact Nat.mod_eq_of_lt
    (lt_of_le_of_lt (clamped_rows_no_overflow size blocks) (by omega))

/-- C9: `initialize` clamps the row count to
`max_size_t / max_block_request` before computing
`rows * max_block_request`, so that product never exceeds `max_size_t`
(no `size_t` overflow: reducing it mod `2 ^ 64` is the identity), and
the clamped count is exactly the spec's `min(R, P, max_rows)`. -/
theorem claim9 (size blocks : Nat) :
    min (min max_rows size) blocks * max_block_request ≤ max_size_t ∧
    (min (min max_rows size) blocks * max_block_request) % (max_size_t + 1)
      = min (min max_rows size) blocks * max_block_request ∧
    min (min max_rows size) blocks = specRows size blocks :=
  ⟨clamped_rows_no_overflow size blocks, clamped_rows_mod_eq size blocks,
    specRows_eq size blocks⟩

theorem initializeTable_zero (size : Nat) (s : reservations)
    (h : min (min max_rows size) s.hashes.length = 0) :
    initializeTable size s = s := by
  rw [initializeTable_eq, if_pos h]

theorem itemsOf_distributeRR (rounds rows : Nat) (s : reservations)
    (h : rows ≤ s.table.length) :
    itemsOf (distributeRR rounds rows s) = itemsOf s :=
  itemsOf_rounds (List.range rounds) rows s h

/-- Characterization of `initialize` run from an empty table (as the
constructor does), in the nonzero-row case. -/
theorem initFromEmpty (size : Nat) (pending : List Item)
    (h0 : 0 < specRows size pending.length) :
    (initializeTable size ⟨[], pending⟩).hashes
        = pending.drop (specAllocation size pending.length
            / specRows size pending.length * specRows size pending.length) ∧
    (initializeTable size ⟨[], pending⟩).table.length
        = specRows size pending.length ∧
    (∀ j, j < specRows size pending.length →
      (initializeTable size ⟨[], pending⟩).table.getD j default
        = { newReservation j with
            queue := (List.range (specAllocation size pending.length
                / specRows size pending.length)).map
              (fun b => pending.getD
                (b * specRows size pending.length + j) (0, 0)) }) := by
  have hRs : min (min max_rows size) pending.length = specRows size pending.length :=
    specRows_eq size pending.length
  have heq := initializeTable_eq size ⟨[], pending⟩
  rw [if_neg (by
    show ¬ min (min max_rows size) pending.length = 0
    omega)] at heq
  have hmod := clamped_rows_mod_eq size pending.length
  rw [show (⟨[], pending⟩ : reservations).hashes.length = pending.length from rfl,
    hmod, hRs] at heq
  rw [show (⟨[], pending⟩ : reservations).hashes = pending from rfl,
    show (⟨[], pending⟩ : reservations).table = ([] : List reservation) from rfl,
    List.nil_append] at heq
  have hallo : min pending.length (specRows size pending.length * max_block_request)
      = specAllocation size pending.length := rfl
  rw [hallo] at heq
  set R := specRows size pending.length with hRdef
  set A := specAllocation size pending.length with hAdef
  set t : reservations := ⟨(List.range R).map newReservation, pending⟩ with ht
  have htlen : t.table.length = R := by simp [ht]
  have hAP : A ≤ pending.length := min_le_left _ _
  have hdr : A / R * R ≤ pending.length :=
    le_trans (Nat.div_mul_le_self _ _) hAP
  obtain ⟨d1, d2, d3, d4⟩ := distributeAux (A / R) R t
    (by rw [htlen]) (by simpa [ht] using hdr)
  refine ⟨?_, ?_, ?_⟩
  · rw [heq, d1]
  · rw [heq, d2, htlen]
  · intro j hj
    rw [heq, d3 j hj]
    have hrow : t.table.getD j default = newReservation j := by
      show ((List.range R).map newReservation).getD j default = _
      exact getD_newRows R j hj
    rw [hrow]
    simp [newReservation, ht]

/-- C1: after `initialize(R)` with pending count `P`, the number of rows
created is `min(R, P, max_size_t / 50000)`; if that number is zero the
table stays empty and no pending item is consumed; otherwise every row
receives exactly `allocation / rows` items and the total distributed is
`(allocation / rows) * rows`, with
`allocation = min(P, rows * 50000)`. -/
theorem claim1 (size : Nat) (pending : List Item) :
    (initializeTable size ⟨[], pending⟩).table.length
        = specRows size pending.length ∧
    (specRows size pending.length = 0 →
      initializeTable size ⟨[], pending⟩ = ⟨[], pending⟩) ∧
    (0 < specRows size pending.length →
      (∀ j, j < specRows size pending.length →
        ((initializeTable size ⟨[], pending⟩).table.getD j default).size
          = specAllocation size pending.length
            / specRows size pending.length) ∧
      ((initializeTable size ⟨[], pending⟩).table.map reservation.size).sum
        = specAllocation size pending.length / specRows size pending.length
          * specRows size pending.length) := by
  have hRs : min (min max_rows size) pending.length
      = specRows size pending.length := specRows_eq size pending.length
  by_cases h0 : specRows size pending.length = 0
  · have hz : initializeTable size ⟨[], pending⟩ = ⟨[], pending⟩ :=
      initializeTable_zero size ⟨[], pending⟩ (by
        show min (min max_rows size) pending.length = 0
        omega)
    refine ⟨?_, fun _ => hz, fun hpos => absurd h0 (by omega)⟩
    rw [hz, h0]
    rfl
  · obtain ⟨d1, d2, d3⟩ := initFromEmpty size pending (by omega)
    refine ⟨d2, fun habs => absurd habs (by omega), fun _ => ⟨?_, ?_⟩⟩
    · intro j hj
      rw [d3 j hj]
      simp [reservation.size, newReservation]
    · have hsz : ∀ j, j < (initializeTable size ⟨[], pending⟩).table.length →
          ((initializeTable size ⟨[], pending⟩).table.getD j default).size
            = specAllocation size pending.length
              / specRows size pending.length := by
        intro j hj
        rw [d2] at hj
        rw [d3 j hj]
        simp [reservation.size, newReservation]
      rw [sum_map_size_const _ _ hsz, d2, Nat.mul_comm]

theorem claim1_witness :
    ((initializeTable 2 ⟨[], pendingC1⟩).table.map reservation.size).sum = 4 := by
  have h := (claim1 2 pendingC1).2.2 (by decide)
  exact h.2.trans (by decide)

theorem newRows_queues_sum (n : Nat) :
    (((List.range n).map newReservation).map
      fun r => (r.queue : Multiset Item)).sum = 0 := by
  induction n with
  | zero => rfl
  | succ k ih =>
    rw [List.range_succ, List.map_append, List.map_append, List.sum_append, ih]
    simp [newReservation]

/-- C2: after `initialize` the multiset of (hash, height) pairs across
the rows plus the remaining pending source equals the original pending
set — no duplication, no omission — and the distributed items are
assigned round-robin: row `j` receives exactly the items at positions
`b * rows + j` of the original pending sequence, for
`b = 0 .. allocation / rows - 1`. -/
theorem claim2 (size : Nat) (pending : List Item) :
    ((initializeTable size ⟨[], pending⟩).table.map
        fun r => (r.queue : Multiset Item)).sum
      + ((initializeTable size ⟨[], pending⟩).hashes : Multiset Item)
      = (pending : Multiset Item) ∧
    (0 < specRows size pending.length →
      ∀ j, j < specRows size pending.length →
        ((initializeTable size ⟨[], pending⟩).table.getD j default).queue
          = (List.range (specAllocation size pending.length
              / specRows size pending.length)).map
              (fun b => pending.getD
                (b * specRows size pending.length + j) (0, 0))) := by
  constructor
  · show itemsOf (initializeTable size ⟨[], pending⟩) = (pending : Multiset Item)
    have hitems : itemsOf (initializeTable size ⟨[], pending⟩)
        = itemsOf ⟨[], pending⟩ := by
      by_cases h0 : min (min max_rows size) pending.length = 0
      · rw [initializeTable_zero size ⟨[], pending⟩ h0]
      · have heq := initializeTable_eq size ⟨[], pending⟩
        rw [if_neg h0] at heq
        rw [heq, itemsOf_distributeRR _ _ _ (by simp)]
        show (((([] : List reservation)
            ++ (List.range (min (min max_rows size) pending.length)).map
              newReservation)).map fun r => (r.queue : Multiset Item)).sum
          + (pending : Multiset Item) = itemsOf ⟨[], pending⟩
        rw [List.nil_append]
        show _ = (([] : List reservation).map
            fun r => (r.queue : Multiset Item)).sum + (pending : Multiset Item)
        congr 1
        exact newRows_queues_sum _
    rw [hitems]
    show (([] : List reservation).map fun r => (r.queue : Multiset Item)).sum
      + (pending : Multiset Item) = (pending : Multiset Item)
    simp
  · intro h0 j hj
    obtain ⟨d1, d2, d3⟩ := initFromEmpty size pending h0
    rw [d3 j hj]

theorem claim2_witness :
    ((initializeTable 3 ⟨[], pendingC2⟩).table.getD 1 default).queue
      = [(21, 2), (24, 5)] := by
  have h := (claim2 3 pendingC2).2 (by decide) 1 (by decide)
  exact h.trans (by decide)

/-! ### Direct top-up (`reserve`) -/

theorem sizeTSub_eq (a b : Nat) (hb : b ≤ a) (ha : a ≤ max_size_t) :
    sizeTSub a b = a - b := by
  unfold sizeTSub
  have h1 : b % (max_size_t + 1) = b := Nat.mod_eq_of_lt (by omega)
  rw [h1]
  have h2 : a + (max_size_t + 1) - b = (a - b) + (max_size_t + 1) := by omega
  rw [h2, Nat.add_mod_right]
  exact Nat.mod_eq_of_lt (by omega)

/-- C4: `reserve(row)` pulls
`min(pending, max_block_request - row.size())` items from the pending
source — possibly fewer than the headroom, possibly zero — appends them
to the row, leaves every other row untouched, and returns true iff at
least one item was obtained or the row was already non-empty,
equivalently iff the row is non-empty after the call. -/
theorem claim4 (i : Nat) (s : reservations)
    (h1 : i < s.table.length)
    (h2 : (s.table.getD i default).size ≤ max_block_request) :
    (reserve i s).2.hashes
        = s.hashes.drop (min s.hashes.length
            (max_block_request - (s.table.getD i default).size)) ∧
    ((reserve i s).2.table.getD i default).queue
        = (s.table.getD i default).queue
          ++ s.hashes.take (min s.hashes.length
            (max_block_request - (s.table.getD i default).size)) ∧
    (∀ j, j ≠ i →
      (reserve i s).2.table.getD j default = s.table.getD j default) ∧
    (reserve i s).2.table.length = s.table.length ∧
    ((reserve i s).1 = true ↔
      (0 < min s.hashes.length
          (max_block_request - (s.table.getD i default).size)
        ∨ (s.table.getD i default).queue ≠ [])) ∧
    ((reserve i s).1 = true ↔
      ((reserve i s).2.table.getD i default).queue ≠ []) := by
  have hsub : sizeTSub max_block_request (s.table.getD i default).size
      = max_block_request - (s.table.getD i default).size :=
    sizeTSub_eq _ _ h2 (by unfold max_block_request max_size_t; norm_num)
  set n := min s.hashes.length
    (max_block_request - (s.table.getD i default).size) with hn
  have hnle : n ≤ s.hashes.length := min_le_left _ _
  have hres : reserve i s
      = (!(((List.range' 0 n).foldl (fun u _ => popInsert u i) s).table.getD
            i default).empty,
          (List.range' 0 n).foldl (fun u _ => popInsert u i) s) := by
    show (!(((List.range (min s.hashes.length
          (sizeTSub max_block_request (s.table.getD i default).size))).foldl
            (fun u _ => popInsert u i) s).table.getD i default).empty,
        (List.range (min s.hashes.length
          (sizeTSub max_block_request (s.table.getD i default).size))).foldl
            (fun u _ => popInsert u i) s) = _
    rw [hsub, ← hn, List.range_eq_range']
  obtain ⟨r1, r2, r3, r4⟩ := reserveLoopAux n 0 i s h1 hnle
  have hqueue : ((reserve i s).2.table.getD i default).queue
      = (s.table.getD i default).queue ++ s.hashes.take n := by
    rw [hres]
    rw [r3]
  have hlenq : ((reserve i s).2.table.getD i default).queue.length
      = (s.table.getD i default).queue.length + n := by
    rw [hqueue, List.length_append, List.length_take]
    omega
  have hbool : (reserve i s).1
      = !((reserve i s).2.table.getD i default).queue.isEmpty := by
    rw [hres]
    rfl
  have hiff2 : (reserve i s).1 = true ↔
      ((reserve i s).2.table.getD i default).queue ≠ [] := by
    rw [hbool]
    simp [List.isEmpty_iff]
  refine ⟨?_, hqueue, ?_, ?_, ?_, hiff2⟩
  · rw [hres]
    exact r1
  · intro j hj
    rw [hres]
    exact r4 j hj
  · rw [hres]
    exact r2
  · rw [hiff2]
    have e1 : ((reserve i s).2.table.getD i default).queue ≠ []
        ↔ ((reserve i s).2.table.getD i default).queue.length ≠ 0 := by
      rw [ne_eq, ← List.length_eq_zero]
    have e2 : (s.table.getD i default).queue ≠ []
        ↔ (s.table.getD i default).queue.length ≠ 0 := by
      rw [ne_eq, ← List.length_eq_zero]
    rw [e1, e2, hlenq]
    omega

theorem claim4_witness : (reserve 0 sC4).2.hashes = [] := by
  have h := (claim4 0 sC4 (by decide) (by decide)).1
  exact h.trans (by decide)

/-! ### Populate, partition, remove -/

theorem partition_eq (i : Nat) (s : reservations) :
    partition i s = match find_maximal s.table with
      | none => s
      | some m => if m = i then s else rowPartition s m i := rfl

theorem populate_eq (i : Nat) (s : reservations) :
    populate i s = if (reserve i s).1 then (reserve i s).2
      else partition i (reserve i s).2 := rfl

/-- C10: on a row already holding exactly `max_block_request = 50000`
items, `populate` is a complete no-op: `reserve` computes a zero
allocation, inserts nothing, returns true because the row is non-empty,
so `partition` is never invoked and the whole state is unchanged. -/
theorem claim10 (i : Nat) (s : reservations)
    (h1 : i < s.table.length)
    (h2 : (s.table.getD i default).size = max_block_request) :
    (reserve i s).1 = true ∧ (reserve i s).2 = s ∧ populate i s = s := by
  have hsub : sizeTSub max_block_request (s.table.getD i default).size = 0 := by
    rw [sizeTSub_eq _ _ (le_of_eq h2)
      (by unfold max_block_request max_size_t; norm_num)]
    omega
  have hres : reserve i s = (!(s.table.getD i default).empty, s) := by
    show (!(((List.range (min s.hashes.length
          (sizeTSub max_block_request (s.table.getD i default).size))).foldl
            (fun u _ => popInsert u i) s).table.getD i default).empty,
        (List.range (min s.hashes.length
          (sizeTSub max_block_request (s.table.getD i default).size))).foldl
            (fun u _ => popInsert u i) s) = _
    rw [hsub, Nat.min_zero, List.range_zero, List.foldl_nil]
  have hq : (s.table.getD i default).queue ≠ [] := by
    intro hc
    have hlen : (s.table.getD i default).queue.length = max_block_request := h2
    rw [hc] at hlen
    unfold max_block_request at hlen
    simp at hlen
  have hie : (s.table.getD i default).queue.isEmpty = false := by
    cases hqq : (s.table.getD i default).queue with
    | nil => exact absurd hqq hq
    | cons a l => rfl
  have hbt : (!(s.table.getD i default).empty) = true := by
    show (!(s.table.getD i default).queue.isEmpty) = true
    rw [hie]
    rfl
  refine ⟨?_, ?_, ?_⟩
  · rw [hres, hbt]
  · rw [hres]
  · rw [populate_eq, hres]
    show (if (!(s.table.getD i default).empty) = true then s
      else partition i s) = s
    rw [hbt]
    simp

theorem claim10_witness : populate 0 sC10 = sC10 := by
  have h1 : 0 < sC10.table.length := by
    show 0 < ([rowFull] : List reservation).length
    simp
  have h2 : (sC10.table.getD 0 default).size = max_block_request := by
    show (List.replicate 50000 ((0, 0) : Item)).length = max_block_request
    rw [List.length_replicate]
    rfl
  exact (claim10 0 sC10 h1 h2).2.2

/-- C5: when `find_maximal` returns the row passed to `partition`, or
the table is empty (`find_maximal` returns none), `partition` performs
no mutation at all — the state is returned unchanged. -/
theorem claim5 (i : Nat) (s : reservations) :
    (find_maximal s.table = some i → partition i s = s) ∧
    (find_maximal s.table = none → partition i s = s) ∧
    (s.table = [] → partition i s = s) := by
  refine ⟨?_, ?_, ?_⟩
  · intro h
    rw [partition_eq, h]
    simp
  · intro h
    rw [partition_eq, h]
  · intro h
    have hnone : find_maximal s.table = none := by
      rw [h]
      rfl
    rw [partition_eq, hnone]

theorem claim5_witness : partition 0 sC5 = sC5 :=
  (claim5 0 sC5).1 (by decide)

/-- C8: `remove` is idempotent — under the table invariant that no two
entries reference the same row (pointer distinctness in the source),
removing a row twice leaves the same table as removing it once — and
removing an absent row is a silent no-op. -/
theorem claim8 (s : reservations) (row : reservation) :
    (s.table.Nodup → remove row (remove row s) = remove row s) ∧
    (row ∉ s.table → remove row s = s) := by
  constructor
  · intro hnd
    have ht : (s.table.erase row).erase row = s.table.erase row := by
      by_cases hm : row ∈ s.table
      · have hnotin : row ∉ s.table.erase row := by
          intro hc
          have hc2 := (List.Nodup.mem_erase_iff hnd).mp hc
          exact hc2.1 rfl
        exact List.erase_of_not_mem hnotin
      · rw [List.erase_of_not_mem hm, List.erase_of_not_mem hm]
    show ({ table := (s.table.erase row).erase row, hashes := s.hashes }
        : reservations) = { table := s.table.erase row, hashes := s.hashes }
    rw [ht]
  · intro hm
    show ({ table := s.table.erase row, hashes := s.hashes } : reservations) = s
    rw [List.erase_of_not_mem hm]

theorem claim8_witness : remove rowC8 sC8 = sC8 :=
  (claim8 sC8 rowC8).2 (by decide)

/-! ### Rate statistics -/

theorem foldl_add_eq_sum (l : List Rat) (c : Rat) :
    l.foldl (fun a b => a + b) c = c + l.sum := by
  induction l generalizing c with
  | nil => simp
  | cons x xs ih =>
    rw [List.foldl_cons, ih, List.sum_cons]
    ring

theorem foldl_sq_eq_sum (l : List Rat) (m c : Rat) :
    l.foldl (fun initial rate => initial + (m - rate) * (m - rate)) c
      = c + (l.map fun rate => (m - rate) * (m - rate)).sum := by
  induction l generalizing c with
  | nil => simp
  | cons x xs ih =>
    rw [List.foldl_cons, ih, List.map_cons, List.sum_cons]
    ring

theorem divide_eq (x : Rat) (n : Nat) : divide x n = x / (n : Rat) := by
  unfold divide
  by_cases h : n = 0
  · rw [if_pos h, h]
    simp
  · rw [if_neg h]

theorem rates_spec (t : List reservation) :
    (rates t).1 = (t.filter fun row => !row.idle).length ∧
    (rates t).2.1 = divide (((t.filter fun row => !row.idle).map
        fun row => row.normal).sum)
      (t.filter fun row => !row.idle).length ∧
    (rates t).2.2 = divide (((t.filter fun row => !row.idle).map
          fun row => row.normal).map
        (fun rate => ((rates t).2.1 - rate) * ((rates t).2.1 - rate))).sum
      (t.filter fun row => !row.idle).length := by
  refine ⟨rfl, ?_, ?_⟩
  · show divide (((t.filter fun row => !row.idle).map
        fun row => row.normal).foldl (fun a b => a + b) 0)
      (t.filter fun row => !row.idle).length = _
    rw [foldl_add_eq_sum, zero_add]
  · show divide (((t.filter fun row => !row.idle).map
        fun row => row.normal).foldl
          (fun initial rate => initial + ((rates t).2.1 - rate)
            * ((rates t).2.1 - rate)) 0)
      (t.filter fun row => !row.idle).length = _
    rw [foldl_sq_eq_sum, zero_add]

/-- C6: `rates()` excludes idle rows from both the count and the
computation, and over the remaining active rows returns
`mean = sum(rates) / active_count` and the population variance
`sum((rate - mean)^2) / active_count` whose square root is the reported
standard deviation; on active normalized rates `[2, 4, 6]` (with an
idle row that is ignored) it yields `active_count = 3`, `mean = 4` and
standard deviation `sqrt(8 / 3) ≈ 1.633`. -/
theorem claim6 :
    (∀ t : List reservation,
      (rates t).1 = (t.filter fun row => !row.idle).length ∧
      (rates t).2.1 = ((t.filter fun row => !row.idle).map
          fun row => row.normal).sum
        / ((t.filter fun row => !row.idle).length : Rat) ∧
      (rates t).2.2 = ((t.filter fun row => !row.idle).map
          fun row => (row.normal - (rates t).2.1)
            * (row.normal - (rates t).2.1)).sum
        / ((t.filter fun row => !row.idle).length : Rat)) ∧
    rates ratesExample = (3, 4, 8 / 3) ∧
    Real.sqrt (((rates ratesExample).2.2 : Rat) : Real)
      = Real.sqrt (8 / 3) ∧
    |Real.sqrt (((rates ratesExample).2.2 : Rat) : Real) - 1.633|
      < 1 / 1000 := by
  have hfil : ratesExample.filter (fun row => !row.idle)
      = [⟨0, [], false, 2⟩, ⟨2, [], false, 4⟩, ⟨3, [], false, 6⟩] := rfl
  obtain ⟨s1, s2, s3⟩ := rates_spec ratesExample
  have e1 : (rates ratesExample).1 = 3 := by
    rw [s1, hfil]
    rfl
  have e2 : (rates ratesExample).2.1 = 4 := by
    rw [s2, hfil, divide_eq]
    show ((2 : Rat) :: (4 : Rat) :: (6 : Rat) :: []).sum / ((3 : Nat) : Rat) = 4
    norm_num
  have e3 : (rates ratesExample).2.2 = 8 / 3 := by
    rw [s3, hfil, divide_eq, e2]
    show (((4 : Rat) - 2) * ((4 : Rat) - 2)
        :: ((4 : Rat) - 4) * ((4 : Rat) - 4)
        :: ((4 : Rat) - 6) * ((4 : Rat) - 6) :: []).sum / ((3 : Nat) : Rat)
      = 8 / 3
    norm_num
  have hconc : rates ratesExample = (3, 4, 8 / 3) := by
    rw [show rates ratesExample = ((rates ratesExample).1,
      (rates ratesExample).2.1, (rates ratesExample).2.2) from rfl, e1, e2, e3]
  have hgen : ∀ t : List reservation,
      (rates t).1 = (t.filter fun row => !row.idle).length ∧
      (rates t).2.1 = ((t.filter fun row => !row.idle).map
          fun row => row.normal).sum
        / ((t.filter fun row => !row.idle).length : Rat) ∧
      (rates t).2.2 = ((t.filter fun row => !row.idle).map
          fun row => (row.normal - (rates t).2.1)
            * (row.normal - (rates t).2.1)).sum
        / ((t.filter fun row => !row.idle).length : Rat) := by
    intro t
    obtain ⟨s1, s2, s3⟩ := rates_spec t
    refine ⟨s1, ?_, ?_⟩
    · rw [s2, divide_eq]
    · rw [s3, divide_eq, List.map_map]
      congr 2
      apply List.map_congr_left
      intro a ha
      show ((rates t).2.1 - a.normal) * ((rates t).2.1 - a.normal) = _
      ring
  have hcast : (((rates ratesExample).2.2 : Rat) : Real) = (8 / 3 : Real) := by
    rw [hconc]
    push_cast
    ring
  have hlow : (1.632 : Real) < Real.sqrt (8 / 3) := by
    rw [show ((8 : Real) / 3) = 8 / 3 from rfl]
    exact (Real.lt_sqrt (by norm_num)).mpr (by norm_num)
  have hhigh : Real.sqrt ((8 : Real) / 3) < 1.634 :=
    (Real.sqrt_lt' (by norm_num)).mpr (by norm_num)
  refine ⟨hgen, hconc, by rw [hcast], ?_⟩
  rw [hcast, abs_lt]
  constructor <;> [linarith; linarith]

/-- C7: with zero active rows — all rows idle, or the empty table that
`initialize` leaves behind when there are zero pending items — `rates()`
is fully guarded against division by zero through the safe `divide`
helper and returns the zero statistics value instead of faulting. -/
theorem claim7 (t : List reservation) (sz : Nat)
    (h : ∀ r ∈ t, r.idle = true) :
    rates t = (0, 0, 0) ∧
    Real.sqrt (((rates t).2.2 : Rat) : Real) = 0 ∧
    (initializeTable sz ⟨[], []⟩).table = [] ∧
    rates (initializeTable sz ⟨[], []⟩).table = (0, 0, 0) := by
  have hfil : t.filter (fun row => !row.idle) = [] := by
    rw [List.filter_eq_nil_iff]
    intro a ha
    simp [h a ha]
  obtain ⟨s1, s2, s3⟩ := rates_spec t
  have h1 : (rates t).1 = 0 := by
    rw [s1, hfil]
    rfl
  have h2 : (rates t).2.1 = 0 := by
    rw [s2, hfil]
    rfl
  have h3 : (rates t).2.2 = 0 := by
    rw [s3, hfil]
    rfl
  have hz : initializeTable sz ⟨[], []⟩ = ⟨[], []⟩ :=
    initializeTable_zero sz ⟨[], []⟩ (by
      show min (min max_rows sz) ([] : List Item).length = 0
      simp)
  refine ⟨?_, ?_, ?_, ?_⟩
  · rw [show rates t = ((rates t).1, (rates t).2.1, (rates t).2.2) from rfl,
      h1, h2, h3]
  · rw [h3]
    simp
  · rw [hz]
  · rw [hz]
    rfl

theorem claim7_witness : rates tC7 = (0, 0, 0) :=
  (claim7 tC7 4 (by decide)).1

/-- C3: with an empty pending source, an empty populated row and some
other row strictly larger, `populate` falls back to partitioning: the
donor is the first row of maximal queue size in slot order (ties
resolve to the earliest), it is never the target itself, and a positive
number of items is moved — not copied — from the donor's queue into the
target's, leaving every other row, the pending source and the total
item count unchanged. `reservation::partition` itself is modelled from
the spec (half the donor queue, rounded up). -/
theorem claim3 (i : Nat) (s : reservations)
    (h1 : s.hashes = [])
    (h2 : i < s.table.length)
    (h3 : (s.table.getD i default).queue = [])
    (h4 : ∃ j, j < s.table.length ∧ j ≠ i
      ∧ 0 < (s.table.getD j default).size) :
    ∃ m k,
      find_maximal s.table = some m ∧ m ≠ i ∧ m < s.table.length ∧ 0 < k ∧
      (∀ j, j < s.table.length →
        (s.table.getD j default).size ≤ (s.table.getD m default).size) ∧
      (∀ j, j < m →
        (s.table.getD j default).size < (s.table.getD m default).size) ∧
      (populate i s).hashes = s.hashes ∧
      ((populate i s).table.getD i default).queue
        = (s.table.getD i default).queue
          ++ (s.table.getD m default).queue.take k ∧
      ((populate i s).table.getD m default).queue
        = (s.table.getD m default).queue.drop k ∧
      (∀ j, j ≠ i → j ≠ m →
        (populate i s).table.getD j default = s.table.getD j default) ∧
      ((populate i s).table.getD i default).size
        = (s.table.getD i default).size + k ∧
      ((populate i s).table.getD m default).size + k
        = (s.table.getD m default).size ∧
      ((populate i s).table.map reservation.size).sum
        = (s.table.map reservation.size).sum := by
  have hsi : (s.table.getD i default).size = 0 := by
    show (s.table.getD i default).queue.length = 0
    rw [h3]
    rfl
  have hemp : (s.table.getD i default).empty = true := by
    show (s.table.getD i default).queue.isEmpty = true
    rw [h3]
    rfl
  have hres : reserve i s = (false, s) := by
    show (!(((List.range (min s.hashes.length
          (sizeTSub max_block_request (s.table.getD i default).size))).foldl
            (fun u _ => popInsert u i) s).table.getD i default).empty,
        (List.range (min s.hashes.length
          (sizeTSub max_block_request (s.table.getD i default).size))).foldl
            (fun u _ => popInsert u i) s) = (false, s)
    rw [h1]
    simp only [List.length_nil, Nat.zero_min, List.range_zero, List.foldl_nil]
    rw [hemp]
    rfl
  have hpop : populate i s = partition i s := by
    rw [populate_eq, hres]
    simp
  obtain ⟨j0, hj0lt, hj0ne, hj0pos⟩ := h4
  obtain ⟨m, hm⟩ := find_maximal_of_ne_nil s.table (by
    intro hc
    rw [hc] at hj0lt
    simp at hj0lt)
  obtain ⟨hmlt, hmax, hfirst⟩ := find_maximal_spec s.table m hm
  have hmpos : 0 < (s.table.getD m default).size :=
    lt_of_lt_of_le hj0pos (hmax j0 hj0lt)
  have hmne : m ≠ i := by
    intro he
    rw [he, hsi] at hmpos
    exact absurd hmpos (by omega)
  have hpart : partition i s = rowPartition s m i := by
    rw [partition_eq, hm]
    show (if m = i then s else rowPartition s m i) = rowPartition s m i
    rw [if_neg hmne]
  set n := (s.table.getD m default).queue.length with hn
  set k := (n + 1) / 2 with hk
  have hnpos : 0 < n := hmpos
  have hkpos : 0 < k := by omega
  have hkle : k ≤ n := by omega
  set donor2 : reservation := { s.table.getD m default with
    queue := (s.table.getD m default).queue.drop k } with hdonor2
  set target2 : reservation := { s.table.getD i default with
    queue := (s.table.getD i default).queue
      ++ (s.table.getD m default).queue.take k } with htarget2
  have hrp : rowPartition s m i
      = { s with table := setTable (setTable s.table m donor2) i target2 } :=
    rfl
  have hfull : populate i s
      = { s with table := setTable (setTable s.table m donor2) i target2 } := by
    rw [hpop, hpart, hrp]
  have hlen1 : (setTable s.table m donor2).length = s.table.length :=
    setTable_length _ _ _
  have hgi : (populate i s).table.getD i default = target2 := by
    rw [hfull]
    show (setTable (setTable s.table m donor2) i target2).getD i default = _
    exact getD_setTable_self _ i _ (by omega)
  have hgm : (populate i s).table.getD m default = donor2 := by
    rw [hfull]
    show (setTable (setTable s.table m donor2) i target2).getD m default = _
    rw [getD_setTable_ne _ i m _ hmne]
    exact getD_setTable_self _ m _ hmlt
  have hgj : ∀ j, j ≠ i → j ≠ m →
      (populate i s).table.getD j default = s.table.getD j default := by
    intro j hji hjm
    rw [hfull]
    show (setTable (setTable s.table m donor2) i target2).getD j default = _
    rw [getD_setTable_ne _ i j _ hji, getD_setTable_ne _ m j _ hjm]
  have hsum : ((populate i s).table.map reservation.size).sum
      = (s.table.map reservation.size).sum := by
    have e1 := map_sum_setTable reservation.size s.table m donor2 hmlt
    have e2 := map_sum_setTable reservation.size
      (setTable s.table m donor2) i target2 (by omega)
    have e3 : (setTable s.table m donor2).getD i default
        = s.table.getD i default :=
      getD_setTable_ne _ m i _ (fun hc => hmne hc.symm)
    rw [e3] at e2
    have hsd : donor2.size = n - k := by
      show ((s.table.getD m default).queue.drop k).length = n - k
      rw [List.length_drop]
    have hst : target2.size = (s.table.getD i default).size + k := by
      show ((s.table.getD i default).queue
        ++ (s.table.getD m default).queue.take k).length = _
      rw [List.length_append, List.length_take]
      have hminkn : min k n = k := by omega
      rw [hminkn]
      rfl
    have hsm : (s.table.getD m default).size = n := rfl
    rw [hsd] at e1
    rw [hsm] at e1
    rw [hst] at e2
    rw [hfull]
    show ((setTable (setTable s.table m donor2) i target2).map
      reservation.size).sum = _
    omega
  refine ⟨m, k, hm, hmne, hmlt, hkpos, hmax, hfirst, ?_, ?_, ?_, hgj, ?_, ?_, hsum⟩
  · rw [hfull]
  · rw [hgi]
  · rw [hgm]
  · rw [hgi]
    show ((s.table.getD i default).queue
      ++ (s.table.getD m default).queue.take k).length = _
    rw [List.length_append, List.length_take]
    have hminkn : min k n = k := by omega
    rw [hminkn]
    rfl
  · rw [hgm]
    show ((s.table.getD m default).queue.drop k).length + k = _
    rw [List.length_drop]
    show n - k + k = n
    omega

theorem claim3_witness :
    ∃ m k,
      find_maximal sC3.table = some m ∧ m ≠ 1 ∧ m < sC3.table.length ∧ 0 < k ∧
      (∀ j, j < sC3.table.length →
        (sC3.table.getD j default).size ≤ (sC3.table.getD m default).size) ∧
      (∀ j, j < m →
        (sC3.table.getD j default).size < (sC3.table.getD m default).size) ∧
      (populate 1 sC3).hashes = sC3.hashes ∧
      ((populate 1 sC3).table.getD 1 default).queue
        = (sC3.table.getD 1 default).queue
          ++ (sC3.table.getD m default).queue.take k ∧
      ((populate 1 sC3).table.getD m default).queue
        = (sC3.table.getD m default).queue.drop k ∧
      (∀ j, j ≠ 1 → j ≠ m →
        (populate 1 sC3).table.getD j default = sC3.table.getD j default) ∧
      ((populate 1 sC3).table.getD 1 default).size
        = (sC3.table.getD 1 default).size + k ∧
      ((populate 1 sC3).table.getD m default).size + k
        = (sC3.table.getD m default).size ∧
      ((populate 1 sC3).table.map reservation.size).sum
        = (sC3.table.map reservation.size).sum :=
  claim3 1 sC3 rfl (by decide) (by decide)
    ⟨0, by decide, by decide, by decide⟩
